import Mathlib

/-!
Verification development for the `dgtest` change-based test selector.

The Python sources under `dgtest/` are embedded shallowly:
* `dgtest/core/fs.py` (file classification and changed-file retrieval) and
  `dgtest/cli.py` (option defaults) are translated directly from the code;
* `dgtest/parse.py` and `dgtest/graph.py` are not part of the available
  sources (only their tests and callers are), so those operations are
  modelled from the specification, as marked in their doc comments.

Paths are strings; the fragment of `pathlib.PurePosixPath` that the code
uses (`stem`, `suffix`, `str(path)`) is embedded over `List Char`.
-/

namespace Dgtest

/-! ## Path model: the fragment of `pathlib` used by `fs.py` -/

/-- Split a character list on a separator character, keeping empty pieces,
mirroring how a POSIX path string decomposes into `/`-separated fields
(and a dotted module string into `.`-separated fields). -/
def splitSep (sep : Char) : List Char → List (List Char)
  | [] => [[]]
  | c :: cs =>
    if c = sep then [] :: splitSep sep cs
    else
      match splitSep sep cs with
      | [] => [[c]]
      | p :: ps => (c :: p) :: ps

/-- Join path components with `/`, as `PurePosixPath.__str__` does. -/
def joinSlash : List (List Char) → List Char
  | [] => []
  | p :: ps =>
    match ps with
    | [] => p
    | _ :: _ => p ++ '/' :: joinSlash ps

/-- A component survives `pathlib` parsing when it is neither empty nor
the single dot. -/
def partOk (p : List Char) : Bool := p != [] && p != ['.']

/-- The parsed components of a path, as `PurePosixPath.parts` (without
the root entry). -/
def pathParts (path : List Char) : List (List Char) :=
  (splitSep '/' path).filter partOk

/-- Whether the path string is absolute (starts with `/`). -/
def isAbs (path : List Char) : Bool := path.head? == some '/'

/-- The final component of the path, as `PurePosixPath.name`. -/
def pathName (path : List Char) : List Char :=
  ((pathParts path).getLast?).getD []

/-- Position (counted from the right, in the reversed name) of the dot
separating a `pathlib` stem from its extension, when there is one:
the last dot of the name, provided it is neither the first nor the last
character. -/
def extSplitIdx (name : List Char) : Option Nat :=
  match name.reverse.findIdx? (fun c => c == '.') with
  | none => none
  | some j => if 1 ≤ j ∧ j + 1 < name.length then some j else none

/-- The extension of a file name, as `PurePosixPath.suffix`. -/
def nameSuffix (name : List Char) : List Char :=
  match extSplitIdx name with
  | none => []
  | some j => (name.reverse.take (j + 1)).reverse

/-- The stem of a file name, as `PurePosixPath.stem`. -/
def nameStem (name : List Char) : List Char :=
  match extSplitIdx name with
  | none => name
  | some j => (name.reverse.drop (j + 1)).reverse

/-- `PurePosixPath(path).stem`. -/
def pathStem (path : List Char) : List Char := nameStem (pathName path)

/-- `PurePosixPath(path).suffix`. -/
def pathSuffix (path : List Char) : List Char := nameSuffix (pathName path)

/-- `str(PurePosixPath(path))`: the canonical string form. -/
def normalizePath (path : List Char) : List Char :=
  let ps := pathParts path
  if ps.isEmpty then (if isAbs path then ['/'] else ['.'])
  else (if isAbs path then ['/'] else []) ++ joinSlash ps

/-- `str(pathlib.Path(f))` at the `String` level. -/
def normStr (f : String) : String := ⟨normalizePath f.data⟩

/-! ## Lexicographic order on strings, for Python's `sorted` -/

/-- Lexicographic comparison of character lists by code point, the order
Python's `sorted` uses on strings. -/
def lexLe : List Char → List Char → Bool
  | [], _ => true
  | _ :: _, [] => false
  | a :: as, b :: bs => if a < b then true else if a = b then lexLe as bs else false

/-- Lexicographic order on path strings. -/
def pathLe (a b : String) : Prop := lexLe a.data b.data = true

instance : DecidableRel pathLe := fun _ _ => instDecidableEqBool _ _

instance : IsTotal String pathLe where
  total a b := by
    unfold pathLe
    generalize a.data = x; generalize b.data = y
    induction x generalizing y with
    | nil => left; rfl
    | cons c cs ih =>
      cases y with
      | nil => right; rfl
      | cons d ds =>
        rcases lt_trichotomy c d with h | h | h
        · left; simp [lexLe, h]
        · subst h
          rcases ih ds with h' | h'
          · left; simp [lexLe, h']
          · right; simp [lexLe, h']
        · right; simp [lexLe, h, lt_asymm h]

instance : IsTrans String pathLe where
  trans a b c := by
    unfold pathLe
    generalize a.data = x; generalize b.data = y; generalize c.data = z
    induction x generalizing y z with
    | nil => intros; rfl
    | cons p ps ih =>
      intro hxy hyz
      cases y with
      | nil => simp [lexLe] at hxy
      | cons q qs =>
        cases z with
        | nil => simp [lexLe] at hyz
        | cons r rs =>
          simp only [lexLe] at hxy hyz ⊢
          split at hxy
          · rename_i hpq
            split at hyz
            · rename_i hqr; simp [lt_trans hpq hqr]
            · split at hyz
              · rename_i h1 h2; subst h2; simp [hpq]
              · exact absurd hyz (by simp)
          · split at hxy
            · rename_i h1 h2; subst h2
              split at hyz
              · rename_i hqr; simp [hqr]
              · split at hyz
                · rename_i h3 h4; subst h4; simp [h1, ih qs rs hxy hyz]
                · exact absurd hyz (by simp)
            · exact absurd hxy (by simp)

/-- Python's `sorted` on a list of path strings. -/
def sortFiles (l : List String) : List String := List.insertionSort pathLe l

/-! ## `dgtest/core/fs.py` -/

/-- Whether a stem names a test file: `stem == "conftest" or
stem.startswith("test_")` (from `_filter_source_files` /
`_filter_test_files`). -/
def isTestNameChars (st : List Char) : Bool :=
  st == "conftest".data || "test_".data.isPrefixOf st

/-- The test-name check applied to a file path string. -/
def isTestFileName (f : String) : Bool := isTestNameChars (pathStem f.data)

/-- `_is_existing_py_file`: `path.is_file() and path.suffix == ".py"`.
The filesystem query is abstracted as the oracle `ex` on canonical path
strings. -/
def isExistingPyFile (ex : String → Bool) (f : String) : Bool :=
  ex (normStr f) && (pathSuffix f.data == ".py".data)

/-- `_filter_source_files`: keep existing `.py` files whose stem is not a
test name, as canonical strings, sorted. -/
def filter_source_files (ex : String → Bool) (files : List String) : List String :=
  sortFiles ((files.filter
    (fun f => isExistingPyFile ex f && !(isTestFileName f))).map normStr)

/-- `_filter_test_files`: keep existing `.py` files whose stem is a test
name, as canonical strings, sorted. -/
def filter_test_files (ex : String → Bool) (files : List String) : List String :=
  sortFiles ((files.filter
    (fun f => isExistingPyFile ex f && isTestFileName f)).map normStr)

/-- Python `str.strip()` on a character list. -/
def stripChars (l : List Char) : List Char :=
  ((l.dropWhile Char.isWhitespace).reverse.dropWhile Char.isWhitespace).reverse

/-- Python `str.strip()` on a string. -/
def stripStr (s : String) : String := ⟨stripChars s.data⟩

/-- `diff_output.split("\n")`. -/
def splitLines (s : String) : List String :=
  (splitSep '\n' s.data).map (fun l => ⟨l⟩)

/-- Python truthiness of an `Optional[str]`: `None` and `""` are falsy. -/
def pyTruthy : Option String → Bool
  | none => false
  | some s => !(s == "")

/-- The `files` list `get_changed_files` builds: the `HEAD` diff lines
(stripped), extended — when the branch argument is truthy — with
branch-diff lines not already present (membership checked before
stripping, appended stripped). -/
def changedFileList (branch : Option String) (localDiff : String)
    (branchDiffOf : String → String) : List String :=
  let files := (splitLines localDiff).map stripStr
  if pyTruthy branch then
    files ++ ((splitLines (branchDiffOf (branch.getD ""))).filter
      (fun f => !(files.contains f))).map stripStr
  else files

/-- `get_changed_files`: build the combined diff line list, then split it
into source and test files.  The two `git diff` invocations are
abstracted as the text `localDiff` and the function `branchDiffOf`. -/
def get_changed_files (branch : Option String) (localDiff : String)
    (branchDiffOf : String → String) (ex : String → Bool) :
    List String × List String :=
  (filter_source_files ex (changedFileList branch localDiff branchDiffOf),
   filter_test_files ex (changedFileList branch localDiff branchDiffOf))

/-! ## `dgtest/cli.py`: the `run` command's option wiring -/

/-- The `--branch` option of `run`: `default="origin/develop"`. -/
def run_branch_option (provided : Option String) : String :=
  provided.getD "origin/develop"

/-- The `--depth` option of `run`: `default=3`. -/
def run_depth_option (provided : Option Int) : Int :=
  provided.getD 3

/-- The branch value `run` hands to `get_changed_files`: always the
resolved option value, never an absent one. -/
def run_changed_files_call (providedBranch : Option String) : Option String :=
  some (run_branch_option providedBranch)

/-! ## `dgtest/parse.py` (not among the available sources; modelled) -/

/-- A Python `set` of strings together with an identity tag, so that the
`update_dict` contract's in-place mutation versus fresh-copy distinction
is observable: two sets alias exactly when their tags coincide. -/
structure PySet where
  id : Nat
  elems : List String
deriving DecidableEq

/-- A Python `dict` mapping names to sets, as an association list. -/
abbrev PyDict := List (String × PySet)

/-- Python `key in A` / `A[key]` lookup (first match). -/
def lookupD : PyDict → String → Option PySet
  | [], _ => none
  | (k₁, v₁) :: rest, k => if k₁ = k then some v₁ else lookupD rest k

/-- Python `A[key] = v` on an existing key: replace the stored set. -/
def setKey : PyDict → String → PySet → PyDict
  | [], _, _ => []
  | (k₁, v₁) :: rest, k, v =>
    if k₁ = k then (k₁, v) :: setKey rest k v else (k₁, v₁) :: setKey rest k v

/-- The keys of a dict. -/
def keys (A : PyDict) : List String := A.map Prod.fst

/-- Python `s.update(t)`: in-place set union — same identity tag as `s`,
elements of both. -/
def pyUnion (s t : PySet) : PySet :=
  ⟨s.id, s.elems ++ t.elems.filter (fun x => !(s.elems.contains x))⟩

/-- Modelled from the spec: `update_dict(A, B)` from `dgtest/parse.py`
(absent from the available sources).  For every key of `B`: if present in
`A`, union `B`'s set into `A`'s set in place; otherwise insert the key
bound to a fresh copy of `B`'s set.  Fresh copies are given identity tags
starting at `n`; the final dict and next free tag are returned. -/
def update_dict : PyDict → PyDict → Nat → PyDict × Nat
  | A, [], n => (A, n)
  | A, (k, v) :: B, n =>
    match lookupD A k with
    | some s => update_dict (setKey A k (pyUnion s v)) B n
    | none => update_dict (A ++ [(k, ⟨n, v.elems⟩)]) B (n + 1)

/-- Extensional equality of string lists viewed as sets. -/
def listSetEq (l m : List String) : Bool :=
  l.all (fun x => m.contains x) && m.all (fun x => l.contains x)

/-- The value set stored at a key, as a plain element list. -/
def elemsAt (A : PyDict) (k : String) : List String :=
  ((lookupD A k).map PySet.elems).getD []

/-- Value-level equality of two dicts: same key set, and set-equal value
sets at every key (identity tags ignored). -/
def dictsValEq (A B : PyDict) : Bool :=
  (keys A).all (fun k => (keys B).contains k) &&
  (keys B).all (fun k => (keys A).contains k) &&
  (keys A).all (fun k => listSetEq (elemsAt A k) (elemsAt B k))

/-- The `.`-separated fields of a dotted module path. -/
def dotParts (m : String) : List (List Char) := splitSep '.' m.data

/-- The `/`-separated fields of a file path. -/
def slashParts (f : String) : List (List Char) := splitSep '/' f.data

/-- Length of the longest common leading run of two segment lists. -/
def commonLead : List (List Char) → List (List Char) → Nat
  | a :: as, b :: bs => if a = b then commonLead as bs + 1 else 0
  | _, _ => 0

/-- Modelled from the spec: the path-similarity score used to
disambiguate an imported name with several candidate definer files —
shared leading segments between the imported module's dotted path and the
candidate's file path. -/
def candScore (module : String) (c : String) : Nat :=
  commonLead (dotParts module) (slashParts c)

/-- The best score among a candidate list. -/
def bestScore (module : String) (cands : List String) : Nat :=
  (cands.map (candScore module)).foldr max 0

/-- Modelled from the spec: candidate selection in the Import Resolver of
`dgtest/parse.py` (absent from the available sources).  Zero or one
candidate pass through unchanged; with several, all candidates of maximal
path-similarity score are retained. -/
def select_candidates (module : String) (cands : List String) : List String :=
  match cands with
  | [] => []
  | [c] => [c]
  | _ :: _ :: _ => cands.filter (fun c => candScore module c == bestScore module cands)

/-- An import statement, as the Import Resolver sees it: `import m` or
`from m import a, b, …`. -/
inductive ImportNode where
  | plain (module : String)
  | fromImport (module : String) (names : List String)

/-- The dotted module path of an import statement. -/
def moduleOf : ImportNode → String
  | .plain m => m
  | .fromImport m _ => m

/-- The names an import statement binds, to be resolved against the
definition map: the listed names of a `from` import, the final module
segment of a plain import. -/
def namesOf : ImportNode → List String
  | .plain m => [⟨(dotParts m).getLastD []⟩]
  | .fromImport _ ns => ns

/-- The root segment of a dotted module path. -/
def moduleRoot (m : String) : List Char := (dotParts m).headD []

/-- A definition map: name ↦ candidate definer files. -/
abbrev DefMap := List (String × List String)

/-- Candidate definer files recorded for a name (empty when untracked). -/
def lookupDef (dm : DefMap) (name : String) : List String :=
  ((dm.find? (fun p => p.1 == name)).map Prod.snd).getD []

/-- Resolution of one imported name: look up candidates, then
disambiguate. -/
def resolveImportName (dm : DefMap) (module : String) (name : String) : List String :=
  select_candidates module (lookupDef dm name)

/-- Modelled from the spec: `parse_import_nodes_from_file` of
`dgtest/parse.py` (absent from the available sources).  Keep only import
statements rooted under the package namespace, resolve every imported
name against the definition map, union the results, drop the file's own
path. -/
def parse_import_nodes_from_file (selfPath : String) (imports : List ImportNode)
    (package : String) (dm : DefMap) : List String :=
  (((imports.filter (fun node => moduleRoot (moduleOf node) == package.data)).foldr
      (fun node acc =>
        (namesOf node).foldr
          (fun n acc2 => resolveImportName dm (moduleOf node) n ++ acc2) acc)
      []).filter (fun f => !(f == selfPath))).dedup

/-! ## `dgtest/graph.py` (not among the available sources; modelled) -/

/-- A dependency graph: file ↦ files it directly depends on. -/
abbrev Graph := List (String × List String)

/-- Files not yet affected that have an edge into the affected set, over
the union of both graphs: one reverse-dependency hop. -/
def dependants (gs gt : Graph) (affected : List String) : List String :=
  ((gs ++ gt).filter
    (fun p => !(affected.contains p.1) && p.2.any (fun d => affected.contains d))).map
    Prod.fst

/-- Modelled from the spec: the bounded reverse-dependency expansion of
the Impact Traversal Engine — up to `depth` hops, stopping early when a
hop adds nothing. -/
def expandAffected (gs gt : Graph) : Nat → List String → List String
  | 0, affected => affected
  | d + 1, affected =>
    let fresh := dependants gs gt affected
    if fresh.isEmpty then affected else expandAffected gs gt d (affected ++ fresh)

/-- Modelled from the spec: the ignore-path and filter-path rules — drop
candidates starting with any ignore entry; when a filter entry is
configured keep only candidates starting with it. -/
def applyFilters (ignoreList : List String) (filt : Option String)
    (cands : List String) : List String :=
  cands.filter (fun f =>
    !(ignoreList.any (fun i => i.data.isPrefixOf f.data)) &&
    (match filt with
     | none => true
     | some p => p.data.isPrefixOf f.data))

/-- Modelled from the spec: `determine_tests_to_run` of `dgtest/graph.py`
(absent from the available sources).  Seed the affected set with all
changed files, expand it `depth` reverse-dependency hops, keep the
affected files known to the test graph plus every changed test file,
apply the path filters, deduplicate and sort. -/
def determine_tests_to_run (changedSource changedTests : List String)
    (gs gt : Graph) (depth : Nat) (ignoreList : List String)
    (filt : Option String) : List String :=
  let affected := expandAffected gs gt depth (changedSource ++ changedTests)
  let testUniverse := gt.map Prod.fst
  let cands := affected.filter (fun f => testUniverse.contains f) ++ changedTests
  sortFiles (applyFilters ignoreList filt cands).dedup

example : pathStem "a/b/test_foo.py".data = "test_foo".data := by decide
example : pathSuffix "a/b/test_foo.py".data = ".py".data := by decide
example : pathStem "pkg/conftest.py".data = "conftest".data := by decide
example : normStr "./a//b.py" = "a/b.py" := by decide
example : nameSuffix ".py".data = [] := by decide
example : nameStem "a.tar.gz".data = "a.tar".data := by decide

example :
    select_candidates "my_package.util"
      ["my_package/util/file.py", "my_package/core/file.py"] =
    ["my_package/util/file.py"] := by decide

example :
    (update_dict [("my_file1", ⟨0, ["a", "b", "c"]⟩)]
      [("my_file1", ⟨1, ["c", "d", "e"]⟩)] 2).1 =
    [("my_file1", ⟨0, ["a", "b", "c", "d", "e"]⟩)] := by decide

example :
    parse_import_nodes_from_file "foo.py"
      [.fromImport "my_package.util" ["my_first_func"]] "my_package"
      [("my_first_func", ["my_package/util/file.py", "my_package/core/file.py"])] =
    ["my_package/util/file.py"] := by decide

example :
    determine_tests_to_run [] ["tests/test_a.py"] [] [] 0 [] none =
    ["tests/test_a.py"] := by decide

example :
    dictsValEq
      (update_dict (update_dict [("a", ⟨0, ["1", "2"]⟩)] [("a", ⟨1, ["2", "3"]⟩)] 2).1
        [("b", ⟨2, ["4"]⟩)] 3).1
      [("a", ⟨9, ["1", "2", "3"]⟩), ("b", ⟨9, ["4"]⟩)] = true := by decide

/-! ## Lemmas about the path model -/

theorem splitSep_ne_nil (sep : Char) (l : List Char) : splitSep sep l ≠ [] := by
  cases l with
  | nil => simp [splitSep]
  | cons c cs =>
    simp only [splitSep]
    split
    · simp
    · split <;> simp

theorem splitSep_no_sep (sep : Char) (l : List Char) :
    ∀ p ∈ splitSep sep l, sep ∉ p := by
  induction l with
  | nil => intro p hp; simp [splitSep] at hp; simp [hp]
  | cons c cs ih =>
    intro p hp
    simp only [splitSep] at hp
    split at hp
    · rcases List.mem_cons.1 hp with h | h
      · simp [h]
      · exact ih p h
    · rename_i hc
      rcases h : splitSep sep cs with _ | ⟨q, qs⟩
      · exact absurd h (splitSep_ne_nil sep cs)
      · rw [h] at hp
        rcases List.mem_cons.1 hp with h' | h'
        · subst h'
          intro hmem
          rcases List.mem_cons.1 hmem with h'' | h''
          · exact hc h''.symm
          · exact ih q (by rw [h]; exact List.mem_cons_self q qs) h''
        · exact ih p (by rw [h]; exact List.mem_cons_of_mem q h')

theorem joinSlash_single (p : List Char) : joinSlash [p] = p := rfl

theorem joinSlash_cons_cons (p q : List Char) (rest : List (List Char)) :
    joinSlash (p :: q :: rest) = p ++ '/' :: joinSlash (q :: rest) := rfl

theorem splitSep_append_sep {sep : Char} {p : List Char} (t : List Char)
    (h : sep ∉ p) : splitSep sep (p ++ sep :: t) = p :: splitSep sep t := by
  induction p with
  | nil => simp [splitSep]
  | cons c cs ih =>
    have hc : ¬ c = sep := fun hcs => h (by simp [hcs])
    have hcs' : sep ∉ cs := fun hm => h (List.mem_cons_of_mem c hm)
    rw [List.cons_append]
    show (if c = sep then [] :: splitSep sep (cs ++ sep :: t)
      else
        match splitSep sep (cs ++ sep :: t) with
        | [] => [[c]]
        | p :: ps => (c :: p) :: ps) = (c :: cs) :: splitSep sep t
    rw [if_neg hc, ih hcs']

theorem splitSep_of_no_sep {sep : Char} {p : List Char} (h : sep ∉ p) :
    splitSep sep p = [p] := by
  induction p with
  | nil => simp [splitSep]
  | cons c cs ih =>
    have hc : ¬ c = sep := fun hcs => h (by simp [hcs])
    have hcs' : sep ∉ cs := fun hm => h (List.mem_cons_of_mem c hm)
    show (if c = sep then [] :: splitSep sep cs
      else
        match splitSep sep cs with
        | [] => [[c]]
        | p :: ps => (c :: p) :: ps) = [c :: cs]
    rw [if_neg hc, ih hcs']

theorem splitSep_joinSlash {ps : List (List Char)}
    (h : ∀ p ∈ ps, '/' ∉ p) (hne : ps ≠ []) :
    splitSep '/' (joinSlash ps) = ps := by
  induction ps with
  | nil => exact absurd rfl hne
  | cons p rest ih =>
    cases rest with
    | nil =>
      rw [joinSlash_single]
      exact splitSep_of_no_sep (h p (List.mem_cons_self p []))
    | cons q rest' =>
      rw [joinSlash_cons_cons]
      rw [splitSep_append_sep _ (h p (List.mem_cons_self p _))]
      rw [ih (fun r hr => h r (List.mem_cons_of_mem p hr)) (by simp)]

theorem pathParts_cons_slash (l : List Char) :
    pathParts ('/' :: l) = pathParts l := by
  simp [pathParts, splitSep, partOk]

theorem pathParts_all_ok (path : List Char) :
    ∀ p ∈ pathParts path, partOk p = true := by
  intro p hp
  exact (List.mem_filter.1 hp).2

theorem pathParts_no_slash (path : List Char) :
    ∀ p ∈ pathParts path, '/' ∉ p := by
  intro p hp
  exact splitSep_no_sep '/' path p (List.mem_filter.1 hp).1

theorem pathParts_joinSlash (path : List Char) (hne : pathParts path ≠ []) :
    pathParts (joinSlash (pathParts path)) = pathParts path := by
  show (splitSep '/' (joinSlash (pathParts path))).filter partOk = pathParts path
  rw [splitSep_joinSlash (pathParts_no_slash path) hne]
  exact List.filter_eq_self.2 (pathParts_all_ok path)

theorem pathParts_normalize (path : List Char) :
    pathParts (normalizePath path) = pathParts path := by
  rcases h : pathParts path with _ | ⟨p, rest⟩
  · have hemp : (pathParts path).isEmpty = true := by rw [h]; rfl
    simp only [normalizePath, hemp, if_true]
    cases hab : isAbs path
    · simpa [h] using (by decide : pathParts ['.'] = [])
    · simpa [h] using (by decide : pathParts ['/'] = [])
  · have hne : pathParts path ≠ [] := by rw [h]; simp
    have hemp : (pathParts path).isEmpty = false := by rw [h]; rfl
    have hj := pathParts_joinSlash path hne
    simp only [normalizePath, hemp, Bool.false_eq_true, if_false]
    cases hab : isAbs path
    · simpa using hj.trans h
    · simp only [if_true]
      rw [show (['/'] ++ joinSlash (pathParts path) : List Char) =
        '/' :: joinSlash (pathParts path) from rfl]
      rw [pathParts_cons_slash]
      exact hj.trans h

theorem pathStem_normalize (path : List Char) :
    pathStem (normalizePath path) = pathStem path := by
  unfold pathStem pathName
  rw [pathParts_normalize]

theorem pathSuffix_normalize (path : List Char) :
    pathSuffix (normalizePath path) = pathSuffix path := by
  unfold pathSuffix pathName
  rw [pathParts_normalize]

theorem nameStem_append_nameSuffix (name : List Char) :
    nameStem name ++ nameSuffix name = name := by
  unfold nameStem nameSuffix
  rcases h : extSplitIdx name with _ | j
  · simp
  · simp only
    rw [← List.reverse_append, List.take_append_drop, List.reverse_reverse]

theorem joinSlash_ends (ps : List (List Char)) (hne : ps ≠ []) :
    ∃ pre, joinSlash ps = pre ++ (ps.getLast?).getD [] := by
  induction ps with
  | nil => exact absurd rfl hne
  | cons p rest ih =>
    cases rest with
    | nil => exact ⟨[], by simp [joinSlash]⟩
    | cons q rest' =>
      obtain ⟨pre, hpre⟩ := ih (by simp)
      refine ⟨p ++ '/' :: pre, ?_⟩
      rw [joinSlash_cons_cons, hpre, List.getLast?_cons_cons]
      simp

theorem normalize_endsWith_py {path : List Char}
    (h : pathSuffix path = ".py".data) :
    ∃ pre, normalizePath path = pre ++ ".py".data := by
  have hsplit : pathStem path ++ ".py".data = pathName path := by
    rw [← h]; exact nameStem_append_nameSuffix (pathName path)
  have hname_ne : pathName path ≠ [] := by
    intro hn
    rw [hn] at hsplit
    exact absurd (List.append_eq_nil.1 hsplit).2 (by decide)
  have hps_ne : pathParts path ≠ [] := by
    intro hp
    apply hname_ne
    unfold pathName
    rw [hp]; rfl
  obtain ⟨pre₁, hpre₁⟩ := joinSlash_ends (pathParts path) hps_ne
  have hname : ((pathParts path).getLast?).getD [] = pathName path := rfl
  refine ⟨(if isAbs path then ['/'] else []) ++ pre₁ ++ pathStem path, ?_⟩
  unfold normalizePath
  rw [if_neg (by simpa [List.isEmpty_iff] using hps_ne)]
  rw [hpre₁, hname, ← hsplit]
  simp [List.append_assoc]

/-! ## Lemmas about the file-set filters -/

theorem mem_sortFiles {x : String} {l : List String} : x ∈ sortFiles l ↔ x ∈ l :=
  (List.perm_insertionSort pathLe l).mem_iff

theorem sorted_sortFiles (l : List String) : List.Sorted pathLe (sortFiles l) :=
  List.sorted_insertionSort pathLe l

theorem nodup_sortFiles {l : List String} (h : l.Nodup) : (sortFiles l).Nodup :=
  ((List.perm_insertionSort pathLe l).nodup_iff).2 h

theorem mem_filter_test_iff {ex : String → Bool} {files : List String} {x : String} :
    x ∈ filter_test_files ex files ↔
    ∃ f, f ∈ files ∧ isExistingPyFile ex f = true ∧ isTestFileName f = true ∧
      normStr f = x := by
  unfold filter_test_files
  rw [mem_sortFiles]
  simp only [List.mem_map, List.mem_filter, Bool.and_eq_true]
  constructor
  · rintro ⟨f, ⟨hf, h1, h2⟩, rfl⟩
    exact ⟨f, hf, h1, h2, rfl⟩
  · rintro ⟨f, hf, h1, h2, rfl⟩
    exact ⟨f, ⟨hf, h1, h2⟩, rfl⟩

theorem mem_filter_source_iff {ex : String → Bool} {files : List String} {x : String} :
    x ∈ filter_source_files ex files ↔
    ∃ f, f ∈ files ∧ isExistingPyFile ex f = true ∧ isTestFileName f = false ∧
      normStr f = x := by
  unfold filter_source_files
  rw [mem_sortFiles]
  simp only [List.mem_map, List.mem_filter, Bool.and_eq_true, Bool.not_eq_true']
  constructor
  · rintro ⟨f, ⟨hf, h1, h2⟩, rfl⟩
    exact ⟨f, hf, h1, h2, rfl⟩
  · rintro ⟨f, hf, h1, h2, rfl⟩
    exact ⟨f, ⟨hf, h1, h2⟩, rfl⟩

theorem isTestFileName_normStr (f : String) :
    isTestFileName (normStr f) = isTestFileName f := by
  unfold isTestFileName normStr
  rw [show (⟨normalizePath f.data⟩ : String).data = normalizePath f.data from rfl]
  rw [pathStem_normalize]

theorem filter_source_test_disjoint {ex : String → Bool} {files : List String}
    {x : String} (hs : x ∈ filter_source_files ex files)
    (ht : x ∈ filter_test_files ex files) : False := by
  obtain ⟨f₁, _, _, h1, e1⟩ := mem_filter_source_iff.1 hs
  obtain ⟨f₂, _, _, h2, e2⟩ := mem_filter_test_iff.1 ht
  have hsame : isTestFileName f₁ = isTestFileName f₂ := by
    rw [← isTestFileName_normStr f₁, ← isTestFileName_normStr f₂, e1, e2]
  rw [h1, h2] at hsame
  exact Bool.false_ne_true hsame

/-- The claim C2: a path is classified as a test file exactly when it is
an existing `.py` file whose stem is `conftest` or starts with `test_`;
it is classified as source exactly when it is an existing `.py` file
whose stem is neither; hence the two filters never both accept a path. -/
theorem filters_partition_by_test_name (ex : String → Bool) (files : List String)
    (x : String) :
    (x ∈ filter_test_files ex files ↔
      ∃ f, f ∈ files ∧ isExistingPyFile ex f = true ∧
        (pathStem f.data = "conftest".data ∨ "test_".data.isPrefixOf (pathStem f.data)) ∧
        normStr f = x) ∧
    (x ∈ filter_source_files ex files ↔
      ∃ f, f ∈ files ∧ isExistingPyFile ex f = true ∧
        ¬(pathStem f.data = "conftest".data ∨ "test_".data.isPrefixOf (pathStem f.data)) ∧
        normStr f = x) ∧
    ¬(x ∈ filter_source_files ex files ∧ x ∈ filter_test_files ex files) := by
  have hname : ∀ f : String, isTestFileName f = true ↔
      (pathStem f.data = "conftest".data ∨ "test_".data.isPrefixOf (pathStem f.data)) := by
    intro f
    unfold isTestFileName isTestNameChars
    simp [List.isPrefixOf_iff_prefix]
  refine ⟨?_, ?_, fun ⟨hs, ht⟩ => filter_source_test_disjoint hs ht⟩
  · rw [mem_filter_test_iff]
    constructor
    · rintro ⟨f, hf, h1, h2, rfl⟩
      exact ⟨f, hf, h1, (hname f).1 h2, rfl⟩
    · rintro ⟨f, hf, h1, h2, rfl⟩
      exact ⟨f, hf, h1, (hname f).2 h2, rfl⟩
  · rw [mem_filter_source_iff]
    constructor
    · rintro ⟨f, hf, h1, h2, rfl⟩
      refine ⟨f, hf, h1, fun hc => ?_, rfl⟩
      rw [← hname f] at hc
      rw [h2] at hc
      exact Bool.false_ne_true hc
    · rintro ⟨f, hf, h1, h2, rfl⟩
      refine ⟨f, hf, h1, ?_, rfl⟩
      rcases hb : isTestFileName f with _ | _
      · rfl
      · exact absurd ((hname f).1 hb) h2

/-- Witness for C2 at a concrete file list. -/
theorem filters_partition_by_test_name_witness :
    ¬("pkg/test_a.py" ∈ filter_source_files (fun _ => true)
        ["pkg/test_a.py", "pkg/b.py"] ∧
      "pkg/test_a.py" ∈ filter_test_files (fun _ => true)
        ["pkg/test_a.py", "pkg/b.py"]) :=
  (filters_partition_by_test_name (fun _ => true) ["pkg/test_a.py", "pkg/b.py"]
    "pkg/test_a.py").2.2

/-- The claim C4: on any input list the changed-source and changed-test
lists are disjoint and each is sorted lexicographically. -/
theorem filters_disjoint_and_sorted (ex : String → Bool) (files : List String) :
    List.Disjoint (filter_source_files ex files) (filter_test_files ex files) ∧
    List.Sorted pathLe (filter_source_files ex files) ∧
    List.Sorted pathLe (filter_test_files ex files) :=
  ⟨fun _ hs ht => filter_source_test_disjoint hs ht,
   sorted_sortFiles _, sorted_sortFiles _⟩

/-- Witness for C4 at a concrete file list. -/
theorem filters_disjoint_and_sorted_witness :
    List.Disjoint
      (filter_source_files (fun _ => true) ["pkg/test_a.py", "pkg/b.py"])
      (filter_test_files (fun _ => true) ["pkg/test_a.py", "pkg/b.py"]) :=
  (filters_disjoint_and_sorted (fun _ => true) ["pkg/test_a.py", "pkg/b.py"]).1

/-! ## Lemmas about `get_changed_files` -/

theorem map_normStr_of_clean {l : List String} (h : ∀ f ∈ l, normStr f = f) :
    l.map normStr = l := by
  rw [List.map_congr_left h, List.map_id']

theorem map_stripStr_of_clean {l : List String} (h : ∀ f ∈ l, stripStr f = f) :
    l.map stripStr = l := by
  rw [List.map_congr_left h, List.map_id']

theorem filter_test_nodup {ex : String → Bool} {files : List String}
    (hclean : ∀ f ∈ files, normStr f = f) (hnd : files.Nodup) :
    (filter_test_files ex files).Nodup := by
  unfold filter_test_files
  apply nodup_sortFiles
  rw [map_normStr_of_clean (fun f hf => hclean f (List.mem_filter.1 hf).1)]
  exact hnd.filter _

theorem filter_source_nodup {ex : String → Bool} {files : List String}
    (hclean : ∀ f ∈ files, normStr f = f) (hnd : files.Nodup) :
    (filter_source_files ex files).Nodup := by
  unfold filter_source_files
  apply nodup_sortFiles
  rw [map_normStr_of_clean (fun f hf => hclean f (List.mem_filter.1 hf).1)]
  exact hnd.filter _

theorem mem_filters_py {ex : String → Bool} {files : List String} {x : String}
    (h : x ∈ filter_source_files ex files ∨ x ∈ filter_test_files ex files) :
    ex x = true ∧ ∃ pre, x.data = pre ++ ".py".data := by
  have hx : ∃ f, isExistingPyFile ex f = true ∧ normStr f = x := by
    rcases h with h | h
    · obtain ⟨f, _, h1, _, e⟩ := mem_filter_source_iff.1 h
      exact ⟨f, h1, e⟩
    · obtain ⟨f, _, h1, _, e⟩ := mem_filter_test_iff.1 h
      exact ⟨f, h1, e⟩
  obtain ⟨f, hpy, rfl⟩ := hx
  unfold isExistingPyFile at hpy
  rw [Bool.and_eq_true] at hpy
  refine ⟨hpy.1, ?_⟩
  have hsuf : pathSuffix f.data = ".py".data := by
    have h2 := hpy.2
    simpa using h2
  obtain ⟨pre, hpre⟩ := normalize_endsWith_py hsuf
  exact ⟨pre, by rw [show (normStr f).data = normalizePath f.data from rfl, hpre]⟩

theorem changedFileList_clean_nodup (branch : Option String) (ld : String)
    (bdf : String → String)
    (hL1 : ∀ f ∈ splitLines ld, stripStr f = f ∧ normStr f = f)
    (hL2 : (splitLines ld).Nodup)
    (hB1 : ∀ f ∈ splitLines (bdf (branch.getD "")), stripStr f = f ∧ normStr f = f)
    (hB2 : (splitLines (bdf (branch.getD ""))).Nodup) :
    (∀ f ∈ changedFileList branch ld bdf, normStr f = f) ∧
    (changedFileList branch ld bdf).Nodup := by
  unfold changedFileList
  rw [map_stripStr_of_clean (fun f hf => (hL1 f hf).1)]
  cases htr : pyTruthy branch
  · simp only [Bool.false_eq_true, if_false]
    exact ⟨fun f hf => (hL1 f hf).2, hL2⟩
  · simp only [if_true]
    rw [map_stripStr_of_clean
      (fun f hf => (hB1 f (List.mem_filter.1 hf).1).1)]
    constructor
    · intro f hf
      rcases List.mem_append.1 hf with hf | hf
      · exact (hL1 f hf).2
      · exact (hB1 f (List.mem_filter.1 hf).1).2
    · refine List.Nodup.append hL2 (hB2.filter _) ?_
      intro a haL haB
      have hc := (List.mem_filter.1 haB).2
      rw [Bool.not_eq_eq_eq_not, Bool.not_true] at hc
      exact absurd (List.elem_eq_true_of_mem haL) (by rw [show (splitLines ld).contains a = (splitLines ld).elem a from rfl] at hc; rw [hc]; simp)

/-- The claim C3: every path that `get_changed_files` returns passes the
existence oracle and ends in `.py`; and when the two diff outputs consist
of distinct lines already in stripped canonical form — as `git diff
--name-only` produces — both returned lists are duplicate-free. -/
theorem get_changed_files_exists_py_nodup (branch : Option String) (ld : String)
    (bdf : String → String) (ex : String → Bool) :
    (∀ x, (x ∈ (get_changed_files branch ld bdf ex).1 ∨
           x ∈ (get_changed_files branch ld bdf ex).2) →
      ex x = true ∧ ∃ pre, x.data = pre ++ ".py".data) ∧
    ((∀ f ∈ splitLines ld, stripStr f = f ∧ normStr f = f) →
     (splitLines ld).Nodup →
     (∀ f ∈ splitLines (bdf (branch.getD "")), stripStr f = f ∧ normStr f = f) →
     (splitLines (bdf (branch.getD ""))).Nodup →
     (get_changed_files branch ld bdf ex).1.Nodup ∧
     (get_changed_files branch ld bdf ex).2.Nodup) := by
  constructor
  · intro x hx
    exact mem_filters_py hx
  · intro hL1 hL2 hB1 hB2
    obtain ⟨hclean, hnd⟩ := changedFileList_clean_nodup branch ld bdf hL1 hL2 hB1 hB2
    exact ⟨filter_source_nodup hclean hnd, filter_test_nodup hclean hnd⟩

/-- Witness for C3 on concrete diff outputs containing an overlap between
the `HEAD` diff and the branch diff. -/
theorem get_changed_files_exists_py_nodup_witness :
    ((∀ f ∈ splitLines "test_a.py\nsrc0.py",
        stripStr f = f ∧ normStr f = f) ∧
     (splitLines "test_a.py\nsrc0.py").Nodup ∧
     (∀ f ∈ splitLines "test_a.py\nother.py",
        stripStr f = f ∧ normStr f = f) ∧
     (splitLines "test_a.py\nother.py").Nodup) ∧
    ((get_changed_files (some "origin/develop") "test_a.py\nsrc0.py"
        (fun _ => "test_a.py\nother.py") (fun _ => true)).1.Nodup ∧
     (get_changed_files (some "origin/develop") "test_a.py\nsrc0.py"
        (fun _ => "test_a.py\nother.py") (fun _ => true)).2.Nodup) :=
  ⟨⟨by decide, by decide, by decide, by decide⟩,
   (get_changed_files_exists_py_nodup (some "origin/develop") "test_a.py\nsrc0.py"
      (fun _ => "test_a.py\nother.py") (fun _ => true)).2
     (by decide) (by decide) (by decide) (by decide)⟩

/-- The claim C9: a falsy branch argument (`None` or `""`) makes
`get_changed_files` use the `HEAD` diff alone — the branch diff is never
consulted and the result is determined by the local diff. -/
theorem get_changed_files_falsy_branch (b b' : Option String) (ld : String)
    (bdf bdf' : String → String) (ex : String → Bool)
    (h : pyTruthy b = false) (h' : pyTruthy b' = false) :
    get_changed_files b ld bdf ex =
      (filter_source_files ex ((splitLines ld).map stripStr),
       filter_test_files ex ((splitLines ld).map stripStr)) ∧
    get_changed_files b ld bdf ex = get_changed_files b' ld bdf' ex := by
  have hfl : ∀ (b₀ : Option String) (bdf₀ : String → String),
      pyTruthy b₀ = false →
      changedFileList b₀ ld bdf₀ = (splitLines ld).map stripStr := by
    intro b₀ bdf₀ h₀
    unfold changedFileList
    rw [h₀]
    simp
  constructor
  · unfold get_changed_files
    rw [hfl b bdf h]
  · unfold get_changed_files
    rw [hfl b bdf h, hfl b' bdf' h']

/-- Witness for C9: `None` and `""` with different branch-diff oracles
give the same result. -/
theorem get_changed_files_falsy_branch_witness :
    (pyTruthy none = false ∧ pyTruthy (some "") = false) ∧
    get_changed_files none "test_a.py" (fun _ => "x.py") (fun _ => true) =
      get_changed_files (some "") "test_a.py" (fun _ => "y.py") (fun _ => true) :=
  ⟨⟨by decide, by decide⟩,
   (get_changed_files_falsy_branch none (some "") "test_a.py"
      (fun _ => "x.py") (fun _ => "y.py") (fun _ => true)
      (by decide) (by decide)).2⟩

/-! ## Lemmas about `update_dict` -/

theorem lookupD_setKey_same (A : PyDict) (k : String) (v : PySet) :
    lookupD (setKey A k v) k = (lookupD A k).map (fun _ => v) := by
  induction A with
  | nil => rfl
  | cons p rest ih =>
    obtain ⟨k₁, v₁⟩ := p
    by_cases h : k₁ = k
    · simp [setKey, lookupD, h]
    · simp [setKey, lookupD, h, ih]

theorem lookupD_setKey_other {k k' : String} (A : PyDict) (v : PySet)
    (h : k ≠ k') : lookupD (setKey A k v) k' = lookupD A k' := by
  induction A with
  | nil => rfl
  | cons p rest ih =>
    obtain ⟨k₁, v₁⟩ := p
    by_cases h₁ : k₁ = k
    · rw [show setKey ((k₁, v₁) :: rest) k v = (k₁, v) :: setKey rest k v from by
        simp [setKey, h₁]]
      have hne : ¬ k₁ = k' := by rw [h₁]; exact h
      show (if k₁ = k' then some v else lookupD (setKey rest k v) k') =
        (if k₁ = k' then some v₁ else lookupD rest k')
      rw [if_neg hne, if_neg hne, ih]
    · rw [show setKey ((k₁, v₁) :: rest) k v = (k₁, v₁) :: setKey rest k v from by
        simp [setKey, h₁]]
      show (if k₁ = k' then some v₁ else lookupD (setKey rest k v) k') =
        (if k₁ = k' then some v₁ else lookupD rest k')
      by_cases h₂ : k₁ = k'
      · rw [if_pos h₂, if_pos h₂]
      · rw [if_neg h₂, if_neg h₂, ih]

theorem lookupD_append_some {A : PyDict} {k : String} {s : PySet}
    (C : PyDict) (h : lookupD A k = some s) : lookupD (A ++ C) k = some s := by
  induction A with
  | nil => simp [lookupD] at h
  | cons p rest ih =>
    obtain ⟨k₁, v₁⟩ := p
    by_cases h₁ : k₁ = k
    · simp only [lookupD, if_pos h₁] at h
      simp [lookupD, h₁, h]
    · simp only [lookupD, if_neg h₁] at h
      simp [lookupD, h₁, ih h]

theorem lookupD_append_none {A : PyDict} {k : String}
    (C : PyDict) (h : lookupD A k = none) : lookupD (A ++ C) k = lookupD C k := by
  induction A with
  | nil => rfl
  | cons p rest ih =>
    obtain ⟨k₁, v₁⟩ := p
    by_cases h₁ : k₁ = k
    · simp [lookupD, if_pos h₁] at h
    · simp only [lookupD, if_neg h₁] at h
      simp [lookupD, h₁, ih h]

theorem keys_setKey (A : PyDict) (k : String) (v : PySet) :
    keys (setKey A k v) = keys A := by
  induction A with
  | nil => rfl
  | cons p rest ih =>
    obtain ⟨k₁, v₁⟩ := p
    by_cases h : k₁ = k <;> simp [setKey, keys, h] <;> simpa [keys] using ih

theorem lookupD_none_iff {A : PyDict} {k : String} :
    lookupD A k = none ↔ k ∉ keys A := by
  induction A with
  | nil => simp [lookupD, keys]
  | cons p rest ih =>
    obtain ⟨k₁, v₁⟩ := p
    by_cases h : k₁ = k
    · simp [lookupD, keys, h]
    · simp [lookupD, keys, h, ih, Ne.symm h]

theorem lookupD_mem {A : PyDict} {k : String} {s : PySet}
    (h : lookupD A k = some s) : (k, s) ∈ A := by
  induction A with
  | nil => simp [lookupD] at h
  | cons p rest ih =>
    obtain ⟨k₁, v₁⟩ := p
    by_cases h₁ : k₁ = k
    · simp only [lookupD, if_pos h₁] at h
      subst h₁
      cases h
      exact List.mem_cons_self _ _
    · simp only [lookupD, if_neg h₁] at h
      exact List.mem_cons_of_mem _ (ih h)

theorem update_dict_cons (A : PyDict) (k : String) (v : PySet) (B : PyDict)
    (n : Nat) :
    update_dict A ((k, v) :: B) n =
      match lookupD A k with
      | some s => update_dict (setKey A k (pyUnion s v)) B n
      | none => update_dict (A ++ [(k, ⟨n, v.elems⟩)]) B (n + 1) := rfl

theorem keys_cons (k : String) (v : PySet) (rest : PyDict) :
    keys ((k, v) :: rest) = k :: keys rest := rfl

theorem update_dict_lookup_notin {B : PyDict} {k : String} :
    ∀ (A : PyDict) (n : Nat), k ∉ keys B →
      lookupD (update_dict A B n).1 k = lookupD A k := by
  induction B with
  | nil => intro A n _; rfl
  | cons p rest ih =>
    obtain ⟨k₁, v₁⟩ := p
    intro A n hk
    rw [keys_cons] at hk
    have hne : k₁ ≠ k := fun h => hk (by simp [h])
    have hrest : k ∉ keys rest := fun h => hk (List.mem_cons_of_mem _ h)
    rw [update_dict_cons]
    rcases hA : lookupD A k₁ with _ | s
    · simp only
      rw [ih _ _ hrest]
      rcases hAk : lookupD A k with _ | s'
      · rw [lookupD_append_none _ hAk]
        simp [lookupD, hne]
      · rw [lookupD_append_some _ hAk]
    · simp only
      rw [ih _ _ hrest, lookupD_setKey_other _ _ hne]

theorem keys_append_single (A : PyDict) (k : String) (v : PySet) :
    keys (A ++ [(k, v)]) = keys A ++ [k] := by
  simp [keys]

theorem update_dict_keys {B : PyDict} {k : String} :
    ∀ (A : PyDict) (n : Nat),
      (k ∈ keys (update_dict A B n).1 ↔ k ∈ keys A ∨ k ∈ keys B) := by
  induction B with
  | nil => intro A n; simp [update_dict, keys]
  | cons p rest ih =>
    obtain ⟨k₁, v₁⟩ := p
    intro A n
    rw [update_dict_cons]
    rcases hA : lookupD A k₁ with _ | s
    · simp only
      rw [ih, keys_append_single, keys_cons]
      simp only [List.mem_append, List.mem_singleton, List.mem_cons]
      tauto
    · simp only
      rw [ih, keys_setKey, keys_cons]
      have hk₁ : k₁ ∈ keys A := by
        by_contra hc
        rw [← lookupD_none_iff] at hc
        rw [hA] at hc
        cases hc
      simp only [List.mem_cons]
      constructor
      · rintro (h | h)
        · exact Or.inl h
        · exact Or.inr (Or.inr h)
      · rintro (h | h | h)
        · exact Or.inl h
        · subst h
          exact Or.inl hk₁
        · exact Or.inr h

theorem mem_pyUnion_elems (s t : PySet) (x : String) :
    x ∈ (pyUnion s t).elems ↔ x ∈ s.elems ∨ x ∈ t.elems := by
  unfold pyUnion
  simp only [List.mem_append, List.mem_filter, Bool.not_eq_eq_eq_not, Bool.not_true]
  constructor
  · rintro (h | ⟨h, _⟩)
    · exact Or.inl h
    · exact Or.inr h
  · rintro (h | h)
    · exact Or.inl h
    · by_cases hm : x ∈ s.elems
      · exact Or.inl hm
      · refine Or.inr ⟨h, ?_⟩
        rcases hc : s.elems.contains x with _ | _
        · rfl
        · exact absurd (List.elem_iff.1 hc) hm

theorem update_dict_lookup_both {B : PyDict} {k : String} :
    ∀ (A : PyDict) (n : Nat) (sA sB : PySet), (keys B).Nodup →
      lookupD A k = some sA → lookupD B k = some sB →
      ∃ s, lookupD (update_dict A B n).1 k = some s ∧ s.id = sA.id ∧
        (∀ x, x ∈ s.elems ↔ x ∈ sA.elems ∨ x ∈ sB.elems) := by
  induction B with
  | nil => intro A n sA sB _ _ hB; simp [lookupD] at hB
  | cons p rest ih =>
    obtain ⟨k₁, v₁⟩ := p
    intro A n sA sB hNd hA hB
    rw [keys_cons] at hNd
    have hNd' : (keys rest).Nodup := hNd.of_cons
    rw [update_dict_cons]
    by_cases hk : k₁ = k
    · subst hk
      simp only [lookupD, if_pos rfl] at hB
      cases hB
      have hknotin : k₁ ∉ keys rest := (List.nodup_cons.1 hNd).1
      rw [hA]
      simp only
      rw [update_dict_lookup_notin _ _ hknotin, lookupD_setKey_same, hA]
      exact ⟨pyUnion sA v₁, rfl, rfl, mem_pyUnion_elems sA v₁⟩
    · simp only [lookupD, if_neg hk] at hB
      rcases hA₁ : lookupD A k₁ with _ | s₁
      · simp only
        exact ih _ _ _ _ hNd' (lookupD_append_some _ hA) hB
      · simp only
        refine ih _ _ _ _ hNd' ?_ hB
        rw [lookupD_setKey_other _ _ hk, hA]

theorem update_dict_lookup_new {B : PyDict} {k : String} :
    ∀ (A : PyDict) (n : Nat) (sB : PySet), (keys B).Nodup →
      lookupD A k = none → lookupD B k = some sB →
      ∃ m, n ≤ m ∧ lookupD (update_dict A B n).1 k = some ⟨m, sB.elems⟩ := by
  induction B with
  | nil => intro A n sB _ _ hB; simp [lookupD] at hB
  | cons p rest ih =>
    obtain ⟨k₁, v₁⟩ := p
    intro A n sB hNd hA hB
    rw [keys_cons] at hNd
    have hNd' : (keys rest).Nodup := hNd.of_cons
    rw [update_dict_cons]
    by_cases hk : k₁ = k
    · subst hk
      simp only [lookupD, if_pos rfl] at hB
      cases hB
      have hknotin : k₁ ∉ keys rest := (List.nodup_cons.1 hNd).1
      rw [hA]
      simp only
      refine ⟨n, le_refl n, ?_⟩
      rw [update_dict_lookup_notin _ _ hknotin, lookupD_append_none _ hA]
      simp [lookupD]
    · simp only [lookupD, if_neg hk] at hB
      rcases hA₁ : lookupD A k₁ with _ | s₁
      · simp only
        have hA' : lookupD (A ++ [(k₁, ⟨n, v₁.elems⟩)]) k = none := by
          rw [lookupD_append_none _ hA]
          simp [lookupD, hk]
        obtain ⟨m, hm, hl⟩ := ih _ _ _ hNd' hA' hB
        exact ⟨m, le_trans (Nat.le_succ n) hm, hl⟩
      · simp only
        refine ih _ _ _ hNd' ?_ hB
        rw [lookupD_setKey_other _ _ hk, hA]

/-! ## Claim theorems for `update_dict` -/

/-- A concrete dict for the `update_dict` witnesses. -/
def exampleDictA : PyDict := [("my_file1", ⟨0, ["a", "b", "c"]⟩)]

/-- A concrete dict for the `update_dict` witnesses. -/
def exampleDictB : PyDict :=
  [("my_file1", ⟨1, ["c", "d", "e"]⟩), ("bar", ⟨2, ["x"]⟩)]

/-- The claim C1: `update_dict(A, B)` leaves `A` with the union of both
key sets; a key of both holds the union of the two sets; a key only in
`B` gains a copy of `B`'s set under a fresh identity (no aliasing of
`B`'s container); a key only in `A` keeps its original value. -/
theorem update_dict_contract (A B : PyDict) (n : Nat)
    (hNd : (keys B).Nodup) (hIdB : ∀ p ∈ B, p.2.id < n) :
    (∀ k, k ∈ keys (update_dict A B n).1 ↔ k ∈ keys A ∨ k ∈ keys B) ∧
    (∀ k sA sB, lookupD A k = some sA → lookupD B k = some sB →
      ∃ s, lookupD (update_dict A B n).1 k = some s ∧
        (∀ x, x ∈ s.elems ↔ x ∈ sA.elems ∨ x ∈ sB.elems)) ∧
    (∀ k sB, lookupD A k = none → lookupD B k = some sB →
      ∃ s, lookupD (update_dict A B n).1 k = some s ∧ s.elems = sB.elems ∧
        s.id ≠ sB.id) ∧
    (∀ k, lookupD B k = none → lookupD (update_dict A B n).1 k = lookupD A k) := by
  refine ⟨fun k => update_dict_keys A n, ?_, ?_, ?_⟩
  · intro k sA sB hA hB
    obtain ⟨s, hs, _, hmem⟩ := update_dict_lookup_both A n sA sB hNd hA hB
    exact ⟨s, hs, hmem⟩
  · intro k sB hA hB
    obtain ⟨m, hm, hs⟩ := update_dict_lookup_new A n sB hNd hA hB
    refine ⟨⟨m, sB.elems⟩, hs, rfl, ?_⟩
    have hid : sB.id < n := hIdB (k, sB) (lookupD_mem hB)
    simp only
    omega
  · intro k hB
    exact update_dict_lookup_notin A n (lookupD_none_iff.1 hB)

/-- Witness for C1: merging the two concrete dicts of the repository's
tests, the key `bar` (only in `B`) gets `B`'s elements under a fresh
identity. -/
theorem update_dict_contract_witness :
    ((keys exampleDictB).Nodup ∧ (∀ p ∈ exampleDictB, p.2.id < 3)) ∧
    (∃ s, lookupD (update_dict exampleDictA exampleDictB 3).1 "bar" = some s ∧
      s.elems = ["x"] ∧ s.id ≠ 2) :=
  ⟨⟨by decide, by decide⟩,
   (update_dict_contract exampleDictA exampleDictB 3 (by decide)
      (by decide)).2.2.1 "bar" ⟨2, ["x"]⟩ (by decide) (by decide)⟩

/-- Folding `update_dict` over a list of dicts, threading the fresh-tag
counter. -/
def foldMerge (A : PyDict) (Bs : List PyDict) (n : Nat) : PyDict × Nat :=
  Bs.foldl (fun acc B => update_dict acc.1 B acc.2) (A, n)

/-- A concrete dict for the fold example: `{a: {1, 2}}`. -/
def exampleFoldA : PyDict := [("a", ⟨0, ["1", "2"]⟩)]

/-- A concrete dict for the fold example: `{a: {2, 3}}`. -/
def exampleFoldB : PyDict := [("a", ⟨1, ["2", "3"]⟩)]

/-- A concrete dict for the fold example: `{b: {4}}`. -/
def exampleFoldC : PyDict := [("b", ⟨2, ["4"]⟩)]

/-- The claim C8: folding `update_dict` is order-independent in its final
value — the example fold gives `{a: {1,2,3}, b: {4}}` in either order of
the last two merges — and a fold never loses keys already present. -/
theorem update_dict_fold_order_independent :
    dictsValEq (foldMerge exampleFoldA [exampleFoldB, exampleFoldC] 3).1
      [("a", ⟨9, ["1", "2", "3"]⟩), ("b", ⟨9, ["4"]⟩)] = true ∧
    dictsValEq (foldMerge exampleFoldA [exampleFoldC, exampleFoldB] 3).1
      [("a", ⟨9, ["1", "2", "3"]⟩), ("b", ⟨9, ["4"]⟩)] = true ∧
    dictsValEq (foldMerge exampleFoldA [exampleFoldB, exampleFoldC] 3).1
      (foldMerge exampleFoldA [exampleFoldC, exampleFoldB] 3).1 = true ∧
    (∀ (A B : PyDict) (n : Nat) (k : String),
      k ∈ keys A → k ∈ keys (update_dict A B n).1) :=
  ⟨by decide, by decide, by decide,
   fun A B n k hk => (update_dict_keys A n).2 (Or.inl hk)⟩

/-- Witness for C8: a key of `A` survives a merge at a concrete input. -/
theorem update_dict_fold_order_independent_witness :
    "a" ∈ keys exampleFoldA ∧
    "a" ∈ keys (update_dict exampleFoldA exampleFoldC 3).1 :=
  ⟨by decide,
   update_dict_fold_order_independent.2.2.2 exampleFoldA exampleFoldC 3 "a"
     (by decide)⟩

/-! ## Claim theorems for the Import Resolver -/

/-- The claim C5: with several candidate definers, exactly the candidates
whose file path shares the longest leading segment run with the imported
module's dotted path are retained; on the repository's example the
`util` candidate wins over the `core` one, and full ties keep all tied
candidates. -/
theorem select_candidates_max_overlap :
    (select_candidates "my_package.util"
        ["my_package/util/file.py", "my_package/core/file.py"] =
      ["my_package/util/file.py"] ∧
     select_candidates "my_package.util"
        ["my_package/core/file.py", "my_package/util/file.py"] =
      ["my_package/util/file.py"] ∧
     select_candidates "pkg"
        ["pkg/a/file.py", "pkg/b/file.py"] =
      ["pkg/a/file.py", "pkg/b/file.py"] ∧
     parse_import_nodes_from_file "foo.py"
        [.fromImport "my_package.util" ["my_first_func"]] "my_package"
        [("my_first_func",
          ["my_package/util/file.py", "my_package/core/file.py"])] =
      ["my_package/util/file.py"]) ∧
    (∀ (module : String) (cands : List String) (c : String),
      2 ≤ cands.length →
      (c ∈ select_candidates module cands ↔
        c ∈ cands ∧ candScore module c = bestScore module cands)) := by
  refine ⟨⟨by decide, by decide, by decide, by decide⟩, ?_⟩
  intro module cands c hlen
  match cands with
  | [] => simp at hlen
  | [c₁] => simp at hlen
  | c₁ :: c₂ :: rest =>
    show c ∈ (c₁ :: c₂ :: rest).filter
      (fun c => candScore module c == bestScore module (c₁ :: c₂ :: rest)) ↔ _
    rw [List.mem_filter]
    simp [beq_iff_eq]

/-- Witness for C5: the winning candidate is a member of the selection at
the repository's example. -/
theorem select_candidates_max_overlap_witness :
    2 ≤ (["my_package/util/file.py", "my_package/core/file.py"] :
      List String).length ∧
    ("my_package/util/file.py" ∈ select_candidates "my_package.util"
        ["my_package/util/file.py", "my_package/core/file.py"] ↔
      "my_package/util/file.py" ∈
        (["my_package/util/file.py", "my_package/core/file.py"] : List String) ∧
      candScore "my_package.util" "my_package/util/file.py" =
        bestScore "my_package.util"
          ["my_package/util/file.py", "my_package/core/file.py"]) :=
  ⟨by decide,
   select_candidates_max_overlap.2 "my_package.util"
     ["my_package/util/file.py", "my_package/core/file.py"]
     "my_package/util/file.py" (by decide)⟩

/-- The claim C6: a file whose import statements all live outside the
package namespace yields the empty dependency set. -/
theorem external_imports_yield_no_edges (selfPath : String)
    (imports : List ImportNode) (package : String) (dm : DefMap)
    (h : ∀ node ∈ imports, moduleRoot (moduleOf node) ≠ package.data) :
    parse_import_nodes_from_file selfPath imports package dm = [] := by
  unfold parse_import_nodes_from_file
  have hfilter : imports.filter
      (fun node => moduleRoot (moduleOf node) == package.data) = [] := by
    rw [List.filter_eq_nil_iff]
    intro node hn
    simp [h node hn]
  rw [hfilter]
  rfl

/-- Witness for C6: the repository test's standard-library imports under
the `great_expectations` namespace resolve to nothing. -/
theorem external_imports_yield_no_edges_witness :
    (∀ node ∈ ([.plain "copy", .plain "datetime", .plain "json",
        .plain "logging", .plain "os",
        .fromImport "typing" ["Dict", "List", "Optional", "Union"],
        .fromImport "uuid" ["UUID"]] : List ImportNode),
      moduleRoot (moduleOf node) ≠ "great_expectations".data) ∧
    parse_import_nodes_from_file "foo.py"
      [.plain "copy", .plain "datetime", .plain "json", .plain "logging",
       .plain "os",
       .fromImport "typing" ["Dict", "List", "Optional", "Union"],
       .fromImport "uuid" ["UUID"]] "great_expectations" [] = [] :=
  ⟨by decide,
   external_imports_yield_no_edges "foo.py" _ "great_expectations" []
     (by decide)⟩

/-! ## Claim theorems for the Impact Traversal Engine -/

/-- The claim C7: with depth zero the engine does no graph expansion —
the result is exactly the changed test files, subject to the configured
filters (provided no changed source file doubles as a test-graph node),
deduplicated and sorted; in particular the repository's example returns
exactly `["tests/test_a.py"]`. -/
theorem depth_zero_returns_changed_tests :
    (∀ (cs ct : List String) (gs gt : Graph) (ign : List String)
        (fl : Option String),
      (∀ f ∈ cs, f ∉ gt.map Prod.fst) →
      (∀ x, x ∈ determine_tests_to_run cs ct gs gt 0 ign fl ↔
        x ∈ applyFilters ign fl ct) ∧
      List.Sorted pathLe (determine_tests_to_run cs ct gs gt 0 ign fl) ∧
      (determine_tests_to_run cs ct gs gt 0 ign fl).Nodup) ∧
    determine_tests_to_run [] ["tests/test_a.py"] [] [] 0 [] none =
      ["tests/test_a.py"] := by
  constructor
  · intro cs ct gs gt ign fl hcs
    refine ⟨?_, sorted_sortFiles _, nodup_sortFiles (List.nodup_dedup _)⟩
    intro x
    show x ∈ sortFiles (applyFilters ign fl
      ((cs ++ ct).filter (fun f => (gt.map Prod.fst).contains f) ++ ct)).dedup ↔ _
    rw [mem_sortFiles, List.mem_dedup]
    unfold applyFilters
    rw [List.filter_append, List.mem_append]
    constructor
    · rintro (hx | hx)
      · rw [List.mem_filter] at hx
        obtain ⟨hx₁, hx₂⟩ := hx
        rw [List.mem_filter] at hx₁
        obtain ⟨hx₃, hx₄⟩ := hx₁
        rcases List.mem_append.1 hx₃ with hx₅ | hx₅
        · exact absurd (List.elem_iff.1 hx₄) (hcs x hx₅)
        · exact List.mem_filter.2 ⟨hx₅, hx₂⟩
      · exact hx
    · intro hx
      exact Or.inr hx
  · decide

/-- Witness for C7: the general depth-zero description applied to the
repository's example. -/
theorem depth_zero_returns_changed_tests_witness :
    (∀ f ∈ (["src/a.py"] : List String),
      f ∉ ([("tests/test_b.py", ["src/a.py"])] : Graph).map Prod.fst) ∧
    (∀ x, x ∈ determine_tests_to_run ["src/a.py"] ["tests/test_a.py"] []
        [("tests/test_b.py", ["src/a.py"])] 0 [] none ↔
      x ∈ applyFilters [] none ["tests/test_a.py"]) :=
  ⟨by decide,
   (depth_zero_returns_changed_tests.1 ["src/a.py"] ["tests/test_a.py"] []
      [("tests/test_b.py", ["src/a.py"])] [] none (by decide)).1⟩

/-! ## Claim theorem for the CLI defaults -/

/-- The claim C10: invoked without an explicit branch option, `run`
passes the default `"origin/develop"` (a present, truthy value, so the
branch diff is consulted) to the changed-file provider, and without an
explicit depth option the traversal depth is `3`. -/
theorem run_option_defaults :
    run_changed_files_call none = some "origin/develop" ∧
    run_depth_option none = 3 ∧
    pyTruthy (run_changed_files_call none) = true ∧
    run_changed_files_call none ≠ none :=
  ⟨rfl, rfl, by decide, by decide⟩

end Dgtest
